import Mathlib

/-!
A verification development for `sumnation.js`, a small functional summation
library.  JavaScript numbers are modelled as rationals (`ℚ`): every
computation the claims exercise stays within exact rational arithmetic, and
the script's own uses of the engine step through integer cursors only.

The `while` loop of the `sumnation` engine may fail to terminate for an
arbitrary successor function, so the loop is embedded with an explicit fuel
parameter counting loop iterations: `none` means the fuel ran out before the
cursor passed the upper bound, `some v` means the loop exited normally with
accumulator `v`.  Termination of a call is the existence of sufficient fuel.

The recursive `gcd` nested inside `coprime` is embedded twice: once as a
total function (well-founded recursion on the second argument) and once with
fuel (`gcdFuel`) so that termination itself is a provable statement rather
than an artifact of the embedding.

JavaScript's `%` on numbers is a truncated-division remainder; `jsMod`
reproduces it on `ℚ` (the one place it is used, `simpson_coefficient`,
applies it to a nonnegative integer cursor and the constant 2).
-/

namespace Sumnation

/-- The summation engine's `while (i <= b)` loop from `sumnation`
(src/sumnation.js lines 84-94), with explicit iteration fuel.
State: cursor `i`, accumulator `answer`.  Each iteration adds `f i` when
`p i` holds and advances the cursor with `next`. -/
def sumnationLoop (f : ℚ → ℚ) (p : ℚ → Bool) (next : ℚ → ℚ) (b : ℚ) : ℕ → ℚ → ℚ → Option ℚ
  | 0, i, answer => if i ≤ b then none else some answer
  | fuel + 1, i, answer =>
      if i ≤ b then
        sumnationLoop f p next b fuel (next i) (if p i then answer + f i else answer)
      else some answer

/-- `sumnation(f, filter, a, next, b)`: cursor starts at `a`, accumulator at 0. -/
def sumnation (f : ℚ → ℚ) (p : ℚ → Bool) (a : ℚ) (next : ℚ → ℚ) (b : ℚ) (fuel : ℕ) : Option ℚ :=
  sumnationLoop f p next b fuel a 0

/-- `add(a, b)` wrapper (lines 100-106). -/
def add (a b : ℚ) (fuel : ℕ) : Option ℚ :=
  sumnation (fun x => x) (fun _ => true) a (fun x => x + 1) b fuel

/-- `filtered_add(filter, a, b)` wrapper (lines 111-117). -/
def filtered_add (p : ℚ → Bool) (a b : ℚ) (fuel : ℕ) : Option ℚ :=
  sumnation (fun x => x) p a (fun x => x + 1) b fuel

/-- `addition(f, a, b)` wrapper (lines 124-130). -/
def addition (f : ℚ → ℚ) (a b : ℚ) (fuel : ℕ) : Option ℚ :=
  sumnation f (fun _ => true) a (fun x => x + 1) b fuel

/-- `filtered_addition(f, filter, a, b)` wrapper (lines 137-143). -/
def filtered_addition (f : ℚ → ℚ) (p : ℚ → Bool) (a b : ℚ) (fuel : ℕ) : Option ℚ :=
  sumnation f p a (fun x => x + 1) b fuel

/-- Truncation toward zero, as JavaScript's number-to-integer rounding in `%`. -/
def jsTrunc (q : ℚ) : ℤ := if 0 ≤ q then ⌊q⌋ else ⌈q⌉

/-- JavaScript's `%` on numbers: the remainder of truncated division,
`a % b = a - b * trunc(a / b)`. -/
def jsMod (a b : ℚ) : ℚ := a - b * (jsTrunc (a / b) : ℚ)

/-- Inner `y(k) = f(a + k*h)` of `simpsons_rule` (lines 182-184);
the captured step `h` is passed explicitly. -/
def simpsons_y (f : ℚ → ℚ) (a h : ℚ) (k : ℚ) : ℚ := f (a + k * h)

/-- Inner `simpson_coefficient(k)` of `simpsons_rule` (lines 186-194):
`y(k)` at `k = 0`, `2*y(k)` for even `k`, `4*y(k)` for odd `k`. -/
def simpson_coefficient (f : ℚ → ℚ) (a h : ℚ) (k : ℚ) : ℚ :=
  if k = 0 then simpsons_y f a h k
  else if jsMod k 2 = 0 then 2 * simpsons_y f a h k
  else 4 * simpsons_y f a h k

/-- `simpsons_rule(f, a, b, n)` (lines 179-197): `h = (b-a)/n` and the result
is `(h/3) * addition(simpson_coefficient, 0, n)`.  The fuel feeds the inner
`addition` loop. -/
def simpsons_rule (f : ℚ → ℚ) (a b n : ℚ) (fuel : ℕ) : Option ℚ :=
  Option.map (fun s => (b - a) / n / 3 * s)
    (addition (simpson_coefficient f a ((b - a) / n)) 0 n fuel)

/-- Simpson coefficient as the specification words it, on integer indices:
1 at `k = 0`, 2 for even `k > 0`, 4 for odd `k`.  Spec-side definition used
to state the refinement claim about `simpsons_rule`. -/
def simpson_coefficient_spec (k : ℕ) : ℚ :=
  if k = 0 then 1 else if k % 2 = 0 then 2 else 4

/-- The recursive `gcd(a, b)` nested in `coprime` (lines 203-209), on the
nonnegative integers the script applies it to (JavaScript `%` agrees with
`Nat.mod` there): `gcd(a, 0) = a`, `gcd(a, b) = gcd(b, a % b)`. -/
def gcd (a b : ℕ) : ℕ :=
  if b = 0 then a else gcd b (a % b)
termination_by b
decreasing_by exact Nat.mod_lt _ (Nat.pos_of_ne_zero (by assumption))

/-- `coprime(n)` (lines 202-212): the predicate `i => gcd(i, n) == 1`. -/
def coprime (n : ℕ) : ℕ → Bool := fun i => gcd i n == 1

/-- The `gcd` recursion with explicit fuel, counting recursive calls, so that
its termination is a statement about the code rather than about the embedding. -/
def gcdFuel : ℕ → ℕ → ℕ → Option ℕ
  | 0, a, b => if b = 0 then some a else none
  | fuel + 1, a, b => if b = 0 then some a else gcdFuel fuel b (a % b)

/-! ### Helper lemmas -/

/-- The embedded `gcd` computes the mathematical gcd of its arguments
(with Mathlib's argument order swapped). -/
theorem gcd_eq_natGcd (a b : ℕ) : gcd a b = Nat.gcd b a := by
  induction b using Nat.strong_induction_on generalizing a with
  | _ b ih =>
    rw [gcd]
    by_cases hb : b = 0
    · subst hb; simp
    · rw [if_neg hb, ih (a % b) (Nat.mod_lt _ (Nat.pos_of_ne_zero hb)) b, Nat.gcd_rec b a]

/-- `jsMod` at a natural cursor and modulus 2 is the natural remainder mod 2. -/
theorem jsMod_natCast_two (k : ℕ) : jsMod (k : ℚ) 2 = ((k % 2 : ℕ) : ℚ) := by
  have hq : (0:ℚ) ≤ (k : ℚ) / 2 := by positivity
  have h2 : k % 2 < 2 := Nat.mod_lt _ (by norm_num)
  have hcast : ((k:ℚ)) = 2 * ((k / 2 : ℕ) : ℚ) + ((k % 2 : ℕ) : ℚ) := by
    exact_mod_cast congrArg (fun n : ℕ => (n : ℚ)) (Nat.div_add_mod k 2).symm
  have hr2 : ((k % 2 : ℕ) : ℚ) < 2 := by exact_mod_cast h2
  have hr0 : (0:ℚ) ≤ ((k % 2 : ℕ) : ℚ) := Nat.cast_nonneg _
  have hz : ((((k / 2 : ℕ) : ℤ)) : ℚ) = ((k / 2 : ℕ) : ℚ) := Int.cast_natCast _
  have hfloor : ⌊(k:ℚ) / 2⌋ = ((k / 2 : ℕ) : ℤ) := by
    rw [Int.floor_eq_iff, hz]
    constructor
    · rw [hcast]; linarith
    · rw [hcast]; linarith
  rw [jsMod, jsTrunc, if_pos hq, hfloor, hz, hcast]
  ring

theorem jsMod_two_eq_zero_iff (k : ℕ) : jsMod (k : ℚ) 2 = 0 ↔ k % 2 = 0 := by
  rw [jsMod_natCast_two]
  exact_mod_cast Nat.cast_eq_zero (R := ℚ)

/-- On integer indices the code's `simpson_coefficient` is the spec's
coefficient times `f (a + k*h)`. -/
theorem simpson_coefficient_natCast (f : ℚ → ℚ) (a h : ℚ) (k : ℕ) :
    simpson_coefficient f a h (k : ℚ) = simpson_coefficient_spec k * f (a + (k:ℚ) * h) := by
  by_cases hk : k = 0
  · subst hk
    simp [simpson_coefficient, simpsons_y, simpson_coefficient_spec]
  · have hkq : (k : ℚ) ≠ 0 := Nat.cast_ne_zero.mpr hk
    rw [simpson_coefficient, if_neg hkq, simpson_coefficient_spec, if_neg hk]
    by_cases he : k % 2 = 0
    · rw [if_pos ((jsMod_two_eq_zero_iff k).mpr he), if_pos he, simpsons_y]
    · rw [if_neg (fun hc => he ((jsMod_two_eq_zero_iff k).mp hc)), if_neg he, simpsons_y]

/-- Running the loop with the `+1` successor and the always-true filter over
the integer window `[i, i+m]`, with fuel for exactly its `m+1` iterations,
adds every `g (i + k)` to the accumulator. -/
theorem sumnationLoop_sum (g : ℚ → ℚ) :
    ∀ (m : ℕ) (i : ℤ) (acc : ℚ),
      sumnationLoop g (fun _ => true) (fun x => x + 1) ((i:ℚ) + m) (m + 1) (i:ℚ) acc
        = some (acc + ∑ k ∈ Finset.range (m + 1), g ((i:ℚ) + k)) := by
  intro m
  induction m with
  | zero =>
    intro i acc
    simp only [Nat.cast_zero, add_zero, sumnationLoop, le_refl, if_true]
    have h2 : ¬ ((i:ℚ) + 1 ≤ i) := by linarith
    simp [h2]
  | succ m ih =>
    intro i acc
    have h1 : (i:ℚ) ≤ (i:ℚ) + ((m:ℚ) + 1) := by
      have : (0:ℚ) ≤ m := Nat.cast_nonneg m
      linarith
    have hcur : (i:ℚ) + 1 = ((i + 1 : ℤ) : ℚ) := by push_cast; ring
    have hb : (i:ℚ) + ((m:ℚ) + 1) = ((i + 1 : ℤ) : ℚ) + (m:ℚ) := by push_cast; ring
    rw [show ((m+1 : ℕ) : ℚ) = (m:ℚ) + 1 by push_cast; ring]
    show sumnationLoop g (fun _ => true) (fun x => x + 1) ((i:ℚ) + ((m:ℚ)+1)) (m + 1 + 1) (i:ℚ) acc = _
    rw [sumnationLoop, if_pos h1]
    simp only [show ((fun _ : ℚ => true) (i:ℚ)) = true from rfl, if_true]
    rw [show ((i:ℚ) + 1) = ((i + 1 : ℤ) : ℚ) from hcur, hb, ih (i+1) (acc + g i)]
    congr 1
    rw [Finset.sum_range_succ' (fun k => g ((i:ℚ) + k)) (m+1)]
    push_cast
    have hterms : (∑ k ∈ Finset.range (m+1), g ((i:ℚ) + ((k:ℚ) + 1)))
        = ∑ k ∈ Finset.range (m+1), g (((i:ℚ) + 1) + (k:ℚ)) := by
      refine Finset.sum_congr rfl (fun k _ => ?_)
      have hx : (i:ℚ) + ((k:ℚ) + 1) = ((i:ℚ) + 1) + (k:ℚ) := by ring
      rw [hx]
    rw [hterms]
    ring_nf

/-- `addition` over the integer window `[0, n]` is the finite sum of `g`. -/
theorem addition_natCast_sum (g : ℚ → ℚ) (n : ℕ) :
    addition g 0 (n : ℚ) (n + 1) = some (∑ k ∈ Finset.range (n + 1), g (k : ℚ)) := by
  have h := sumnationLoop_sum g n 0 0
  simp only [Int.cast_zero, zero_add] at h
  rw [addition, sumnation, h]

/-- `simpsons_rule` with an integer subinterval count `n` and fuel `n+1`
returns `(h/3)` times the coefficient-weighted sum, coefficients as the
spec words them. -/
theorem simpsons_rule_sum_formula (f : ℚ → ℚ) (a b : ℚ) (n : ℕ) :
    simpsons_rule f a b (n : ℚ) (n + 1)
      = some ((b - a) / (n:ℚ) / 3 * ∑ k ∈ Finset.range (n + 1),
          simpson_coefficient_spec k * f (a + (k:ℚ) * ((b - a) / (n:ℚ)))) := by
  rw [simpsons_rule, addition_natCast_sum]
  simp only [Option.map_some']
  congr 1
  congr 1
  refine Finset.sum_congr rfl (fun k _ => ?_)
  rw [simpson_coefficient_natCast]

/-- Gauss sum over `ℚ`. -/
theorem sum_range_cast (n : ℕ) : (∑ k ∈ Finset.range n, (k:ℚ)) = n * (n - 1) / 2 := by
  induction n with
  | zero => simp
  | succ n ih => rw [Finset.sum_range_succ, ih]; push_cast; ring

/-- Closed form for the code's coefficient-weighted sum of cubes over an even
window `[0, 2m]`: the `k = 2m` endpoint carries coefficient 2. -/
theorem simpson_cube_sum (m : ℕ) :
    (∑ k ∈ Finset.range (2*m + 1), simpson_coefficient_spec k * (k:ℚ)^3)
      = 12*(m:ℚ)^4 + 8*(m:ℚ)^3 := by
  induction m with
  | zero => simp [simpson_coefficient_spec]
  | succ m ih =>
    have hidx : 2*(m+1) + 1 = (2*m + 1) + 1 + 1 := by ring
    rw [hidx, Finset.sum_range_succ, Finset.sum_range_succ, ih]
    have h1 : simpson_coefficient_spec (2*m + 1) = 4 := by
      rw [simpson_coefficient_spec, if_neg (by omega), if_neg (by omega)]
    have h2 : simpson_coefficient_spec (2*m + 1 + 1) = 2 := by
      rw [simpson_coefficient_spec, if_neg (by omega), if_pos (by omega)]
    rw [h1, h2]
    push_cast
    ring

/-- With a strictly increasing successor that carries integers to integers,
an integer cursor advances by at least 1 per iteration, so fuel exceeding
`b - z` iterations makes the loop exit normally. -/
theorem sumnationLoop_int_isSome (f : ℚ → ℚ) (p : ℚ → Bool) (next : ℚ → ℚ) (b : ℚ)
    (hinc : ∀ x, x < next x) (hint : ∀ z : ℤ, ∃ w : ℤ, next (z:ℚ) = (w:ℚ)) :
    ∀ (fuel : ℕ) (z : ℤ) (acc : ℚ), b - (z:ℚ) < fuel →
      (sumnationLoop f p next b fuel (z:ℚ) acc).isSome = true := by
  intro fuel
  induction fuel with
  | zero =>
    intro z acc hlt
    have hbz : b < (z:ℚ) := by
      have h0 : ((0:ℕ):ℚ) = 0 := Nat.cast_zero
      rw [h0] at hlt
      linarith
    rw [sumnationLoop, if_neg (not_le.mpr hbz)]
    rfl
  | succ fuel ih =>
    intro z acc hlt
    rw [sumnationLoop]
    by_cases hib : (z:ℚ) ≤ b
    · rw [if_pos hib]
      obtain ⟨w, hw⟩ := hint z
      rw [hw]
      apply ih
      have hzw : z < w := by
        have hx := hinc (z:ℚ)
        rw [hw] at hx
        exact_mod_cast hx
      have hq : (z:ℚ) + 1 ≤ (w:ℚ) := by exact_mod_cast Int.add_one_le_iff.mpr hzw
      have hs : ((fuel + 1 : ℕ):ℚ) = (fuel:ℚ) + 1 := by push_cast; ring
      rw [hs] at hlt
      linarith
    · rw [if_neg hib]
      rfl

/-- With a successor that never strictly increases the cursor, a loop started
at or below the bound never exits, whatever the fuel. -/
theorem sumnationLoop_none (f : ℚ → ℚ) (p : ℚ → Bool) (next : ℚ → ℚ) (b : ℚ)
    (hnext : ∀ x, next x ≤ x) :
    ∀ (fuel : ℕ) (i acc : ℚ), i ≤ b → sumnationLoop f p next b fuel i acc = none := by
  intro fuel
  induction fuel with
  | zero =>
    intro i acc hib
    rw [sumnationLoop, if_pos hib]
  | succ fuel ih =>
    intro i acc hib
    rw [sumnationLoop, if_pos hib]
    exact ih _ _ (le_trans (hnext i) hib)

/-! ### Claims -/

/-- Claim C1 (code_bug evidence): evaluating `simpsons_rule` at
`f = x^3, a = 0, b = 1, n = 1000` (fuel `1001`, enough for the inner loop)
yields exactly `751/3000 = 0.25 + 1/3000`, and that value is *not* within
`1e-6` of `0.25`.  The `k = n` endpoint receives Simpson coefficient 2
instead of the standard 1, adding `(h/3)*f(b) = 1/3000` of error. -/
theorem simpsons_rule_cube_1000 :
    simpsons_rule (fun x => x * x * x) 0 1 1000 1001 = some (751 / 3000)
    ∧ (1 / 1000000 : ℚ) < |(751 / 3000 : ℚ) - 1 / 4| := by
  constructor
  · have hc : ((1000:ℕ):ℚ) = 1000 := by norm_num
    have h := simpsons_rule_sum_formula (fun x => x * x * x) 0 1 1000
    rw [hc, show (1000:ℕ) + 1 = 1001 from rfl] at h
    rw [h]
    congr 1
    have e1 : ∀ k ∈ Finset.range 1001,
        simpson_coefficient_spec k * ((fun x : ℚ => x * x * x) (0 + (k:ℚ) * ((1 - 0) / (1000:ℚ))))
          = (simpson_coefficient_spec k * (k:ℚ)^3) * (1/1000000000) := by
      intro k _
      show simpson_coefficient_spec k * ((0 + (k:ℚ) * ((1 - 0) / (1000:ℚ)))
          * (0 + (k:ℚ) * ((1 - 0) / (1000:ℚ))) * (0 + (k:ℚ) * ((1 - 0) / (1000:ℚ))))
        = (simpson_coefficient_spec k * (k:ℚ)^3) * (1/1000000000)
      ring
    rw [Finset.sum_congr rfl e1, ← Finset.sum_mul,
      show (1001:ℕ) = 2*500 + 1 from rfl, simpson_cube_sum]
    norm_num
  · rw [abs_of_nonneg (by norm_num)]
    norm_num

/-- Claim C2: for every `f`, `a`, `b` and positive integer `n`, the code's
`simpsons_rule(f, a, b, n)` equals `(h/3)` times the sum over `k = 0..n` of
`c(k) * f(a + k*h)` with `h = (b-a)/n`, where `c(0) = 1`, `c(k) = 2` for even
`k > 0` (including `k = n` when `n` is even) and `c(k) = 4` for odd `k`. -/
theorem simpsons_rule_coefficient_sum (f : ℚ → ℚ) (a b : ℚ) (n : ℕ) (_hn : 0 < n) :
    simpsons_rule f a b (n : ℚ) (n + 1)
      = some ((b - a) / (n:ℚ) / 3 * ∑ k ∈ Finset.range (n + 1),
          simpson_coefficient_spec k * f (a + (k:ℚ) * ((b - a) / (n:ℚ)))) := by
  exact simpsons_rule_sum_formula f a b n

theorem simpsons_rule_coefficient_sum_witness :
    0 < 2 ∧ simpsons_rule (fun x => x) 0 1 ((2:ℕ) : ℚ) (2 + 1)
      = some ((1 - 0) / ((2:ℕ):ℚ) / 3 * ∑ k ∈ Finset.range (2 + 1),
          simpson_coefficient_spec k * (0 + (k:ℚ) * ((1 - 0) / ((2:ℕ):ℚ)))) :=
  ⟨by decide, simpsons_rule_coefficient_sum (fun x => x) 0 1 2 (by decide)⟩

/-- Claim C3: for integers `a ≤ b`, `sumnation` with the identity transform,
the always-true filter, the `+1` successor and fuel for its `b - a + 1`
iterations returns the arithmetic-series closed form `(b-a+1)*(a+b)/2`. -/
theorem sumnation_arith_series (a b : ℤ) (h : a ≤ b) :
    sumnation (fun x => x) (fun _ => true) (a:ℚ) (fun x => x + 1) (b:ℚ) ((b - a).toNat + 1)
      = some (((b:ℚ) - (a:ℚ) + 1) * ((a:ℚ) + (b:ℚ)) / 2) := by
  set m := (b - a).toNat with hm
  have hmz : ((m:ℤ)) = b - a := by rw [hm]; exact Int.toNat_of_nonneg (sub_nonneg.mpr h)
  have hbq : (b:ℚ) = (a:ℚ) + (m:ℚ) := by
    have hq : ((m:ℤ):ℚ) = ((b - a : ℤ):ℚ) := by exact_mod_cast congrArg (fun z : ℤ => (z:ℚ)) hmz
    push_cast at hq
    linarith
  rw [sumnation, hbq, sumnationLoop_sum (fun x => x) m a 0]
  congr 1
  rw [zero_add, Finset.sum_add_distrib, Finset.sum_const, Finset.card_range,
    nsmul_eq_mul, sum_range_cast]
  push_cast
  ring

theorem sumnation_arith_series_witness :
    (1:ℤ) ≤ 3 ∧ sumnation (fun x => x) (fun _ => true) ((1:ℤ):ℚ) (fun x => x + 1) ((3:ℤ):ℚ)
        (((3:ℤ) - (1:ℤ)).toNat + 1)
      = some ((((3:ℤ):ℚ) - ((1:ℤ):ℚ) + 1) * (((1:ℤ):ℚ) + ((3:ℤ):ℚ)) / 2) :=
  ⟨by decide, sumnation_arith_series 1 3 (by decide)⟩

/-- Claim C4 (counterexample to the claim as stated): the claim's second half
says a successor that does not strictly increase the cursor makes the call
diverge.  With `next = id` — which does not strictly increase: `id 0 = 0` —
and `a = 1 > 0 = b`, the call nevertheless terminates at once with `0`,
consulting no fuel at all. -/
theorem sumnation_termination_cex :
    ¬ ((fun x : ℚ => x) 0 > 0)
    ∧ sumnation (fun x => x) (fun _ => true) 1 (fun x => x) 0 0 = some 0 := by
  constructor
  · norm_num
  · rw [sumnation, sumnationLoop, if_neg (by norm_num)]

/-- Claim C4 (amended): if the successor strictly increases every number and
carries integers to integers — integrality standing in for the discreteness
of machine numbers in the exact-rational model, and covering every cursor the
script constructs — then from an integer start the call terminates, any fuel
exceeding `b - a` iterations returning a value; and if `a ≤ b` and the
successor never strictly increases its argument, the call exhausts any fuel
without returning, while with `a > b` it returns regardless of the successor. -/
theorem sumnation_termination_amended :
    (∀ (f : ℚ → ℚ) (p : ℚ → Bool) (next : ℚ → ℚ) (a : ℤ) (b : ℚ) (fuel : ℕ),
        (∀ x, x < next x) → (∀ z : ℤ, ∃ w : ℤ, next (z:ℚ) = (w:ℚ)) →
        b - (a:ℚ) < fuel →
        (sumnation f p (a:ℚ) next b fuel).isSome = true)
    ∧ (∀ (f : ℚ → ℚ) (p : ℚ → Bool) (a : ℚ) (next : ℚ → ℚ) (b : ℚ),
        a ≤ b → (∀ x, next x ≤ x) →
        ∀ fuel : ℕ, sumnation f p a next b fuel = none) := by
  constructor
  · intro f p next a b fuel h1 h2 h3
    rw [sumnation]
    exact sumnationLoop_int_isSome f p next b h1 h2 fuel a 0 h3
  · intro f p a next b hab h1 fuel
    rw [sumnation]
    exact sumnationLoop_none f p next b h1 fuel a 0 hab

theorem sumnation_termination_amended_witness :
    (sumnation (fun x => x) (fun _ => true) ((0:ℤ):ℚ) (fun x => x + 1) 0 1).isSome = true
    ∧ sumnation (fun x => x) (fun _ => true) 0 (fun x => x) 0 5 = none :=
  ⟨sumnation_termination_amended.1 (fun x => x) (fun _ => true) (fun x => x + 1) 0 0 1
      (fun x => lt_add_one x) (fun z => ⟨z + 1, by simp⟩) (by simp),
    sumnation_termination_amended.2 (fun x => x) (fun _ => true) 0 (fun x => x) 0 (le_refl 0)
      (fun x => le_refl x) 5⟩

/-- Claim C5: whenever `a > b`, `sumnation` returns 0 — for every transform,
filter and successor alike (the loop body never runs, so none of them is
consulted), and with any fuel, including none at all. -/
theorem sumnation_empty_range (f : ℚ → ℚ) (p : ℚ → Bool) (next : ℚ → ℚ) (a b : ℚ)
    (h : b < a) (fuel : ℕ) :
    sumnation f p a next b fuel = some 0 := by
  cases fuel with
  | zero => rw [sumnation, sumnationLoop, if_neg (not_le.mpr h)]
  | succ fuel => rw [sumnation, sumnationLoop, if_neg (not_le.mpr h)]

theorem sumnation_empty_range_witness :
    (0:ℚ) < 1 ∧ sumnation (fun x => x) (fun _ => true) 1 (fun x => x + 1) 0 0 = some 0 :=
  ⟨zero_lt_one, sumnation_empty_range (fun x => x) (fun _ => true) (fun x => x + 1) 1 0 zero_lt_one 0⟩

/-- Claim C6: `coprime n` tests coprimality — `coprime n i` is true exactly
when the mathematical `gcd i n` is 1 — and on the spec's sample pairs,
`coprime 12 5` holds while `coprime 12 6` does not. -/
theorem coprime_iff_gcd_one :
    (∀ n i : ℕ, coprime n i = true ↔ Nat.gcd i n = 1)
    ∧ coprime 12 5 = true ∧ coprime 12 6 = false := by
  refine ⟨fun n i => ?_, ?_, ?_⟩
  · show (gcd i n == 1) = true ↔ _
    rw [gcd_eq_natGcd, Nat.gcd_comm, beq_iff_eq]
  · show (gcd 5 12 == 1) = true
    rw [gcd_eq_natGcd]
    decide
  · show (gcd 6 12 == 1) = false
    rw [gcd_eq_natGcd]
    decide

/-- Claim C7: each of the four wrappers is the engine with its fixed
parameters — identity transform and/or always-true filter, always the `+1`
successor — and no further logic. -/
theorem wrappers_eq_engine (f : ℚ → ℚ) (p : ℚ → Bool) (a b : ℚ) (fuel : ℕ) :
    add a b fuel = sumnation (fun x => x) (fun _ => true) a (fun x => x + 1) b fuel
    ∧ filtered_add p a b fuel = sumnation (fun x => x) p a (fun x => x + 1) b fuel
    ∧ addition f a b fuel = sumnation f (fun _ => true) a (fun x => x + 1) b fuel
    ∧ filtered_addition f p a b fuel = sumnation f p a (fun x => x + 1) b fuel :=
  ⟨rfl, rfl, rfl, rfl⟩

/-- Claim C8: `filtered_add` with the always-true filter coincides with `add`
on identical bounds. -/
theorem filtered_add_true_eq_add (a b : ℚ) (fuel : ℕ) :
    filtered_add (fun _ => true) a b fuel = add a b fuel := rfl

/-- Claim C9: the `gcd` recursion terminates on all nonnegative inputs — the
second argument strictly decreases under `%`, so fuel exceeding `b` recursive
calls always suffices and the fuelled recursion agrees with the total one.
In particular `coprime n i` is well-defined for every `i`, also `i ≥ n`. -/
theorem gcd_fuel_terminates (a b fuel : ℕ) (h : b < fuel) :
    gcdFuel fuel a b = some (gcd a b) := by
  induction b using Nat.strong_induction_on generalizing a fuel with
  | _ b ih =>
    match fuel, h with
    | fuel + 1, h =>
      rw [gcdFuel, gcd]
      by_cases hb : b = 0
      · simp [hb]
      · rw [if_neg hb, if_neg hb]
        exact ih (a % b) (Nat.mod_lt _ (Nat.pos_of_ne_zero hb)) b fuel
          (lt_of_lt_of_le (Nat.mod_lt _ (Nat.pos_of_ne_zero hb)) (Nat.lt_succ_iff.mp h))

theorem gcd_fuel_terminates_witness : gcdFuel 13 15 12 = some (gcd 15 12) :=
  gcd_fuel_terminates 15 12 13 (by decide)

/-- Claim C10: the coprimality predicate is symmetric in its two arguments. -/
theorem coprime_symm (i n : ℕ) : coprime n i = coprime i n := by
  show (gcd i n == 1) = (gcd n i == 1)
  rw [gcd_eq_natGcd, gcd_eq_natGcd, Nat.gcd_comm]

end Sumnation
